import Mathlib

/-! # Verification of the wait-condition parser (pkg/cmd/wait/waiter.go)

Shallow embedding of the condition-expression parser of `waiter.go`: the
classifier `waiterFor`, the expression normalizer `processJSONPathInput` and
the path compiler front end `newJSONPathParser`, together with the Go
standard-library string operations they call (`strings.ToLower`,
`strings.HasPrefix`, `strings.Split`, `strings.Index` slicing, `strings.Trim`)
modelled over `List Char`.  The two external collaborators — the field-selector
relaxer `get.RelaxedJSONPathExpression` and the jsonpath `Parse` method, both
outside this package — are passed in as explicit function parameters, so every
theorem quantifies over their behaviour unless it needs a concrete instance.
Go error values are embedded as one constructor per `errors.New`/`fmt.Errorf`
site, with `errMessage` giving the user-visible text (the `%q` verb is
modelled by `goQuote`).
-/

namespace KubectlWait

/-- Go `strings.ToLower`, character by character.  `Char.toLower` lowercases
the ASCII range; no character outside that range lowercases into the letters
of `delete`, so equality with `delete` agrees with Go's Unicode lowering. -/
def goToLower (l : List Char) : List Char := l.map Char.toLower

/-- Go `strings.HasPrefix s pre`: whether `s` begins with `pre`. -/
def goHasPrefix (s pre : List Char) : Bool :=
  match pre with
  | [] => true
  | p :: ps =>
    match s with
    | [] => false
    | c :: cs => c == p && goHasPrefix cs ps

/-- Go `strings.Split s sep` for a one-character separator: the fields of `s`
around every occurrence of `sep` (never the empty list; `n+1` fields for `n`
separators). -/
def goSplit (sep : Char) : List Char → List (List Char)
  | [] => [[]]
  | c :: cs =>
    if c == sep then [] :: goSplit sep cs
    else
      match goSplit sep cs with
      | [] => [[c]]
      | f :: rest => (c :: f) :: rest

/-- The slicing `s[:i], s[i+1:]` at `i = strings.Index s sep`: `none` when
`sep` does not occur, otherwise the parts before and after its first
occurrence. -/
def splitAtFirst (sep : Char) : List Char → Option (List Char × List Char)
  | [] => none
  | c :: cs =>
    if c == sep then some ([], cs)
    else
      match splitAtFirst sep cs with
      | some (a, b) => some (c :: a, b)
      | none => none

/-- Go `strings.TrimLeft l cutset`: all leading characters contained in
`cutset` removed. -/
def goTrimLeft (cutset l : List Char) : List Char :=
  l.dropWhile fun c => decide (c ∈ cutset)

/-- Go `strings.Trim l cutset`: all leading and trailing characters contained
in `cutset` removed (every such character, not one layer). -/
def goTrim (cutset l : List Char) : List Char :=
  ((goTrimLeft cutset l).reverse.dropWhile fun c => decide (c ∈ cutset)).reverse

/-- The cutset of the Go literal `'"` that `processJSONPathInput` trims: a
single-quote and a double-quote character. -/
def quoteCutset : List Char := ['\'', '"']

/-- One hexadecimal digit, lowercase, as Go's `strconv` prints it. -/
def goHexDigit (n : Nat) : Char :=
  if n < 10 then Char.ofNat (48 + n) else Char.ofNat (87 + n)

/-- Go `strconv` quoting of one character between the double quotes the `%q`
verb produces (`strconv.appendEscapedRune` with quote `"`): the quote and the
backslash are backslash-escaped first; a printable character stands for
itself; the seven named control escapes follow; every remaining character
below the space or equal to 0x7f gets a `\xHH` escape, and the rest `\uHHHH`
or `\UHHHHHHHH` by size.  Which characters count as printable is decided by
Go's `unicode.IsPrint` table, an external collaborator passed in as `isPrint`
like the relaxer and the parser elsewhere in this file (a Lean `Char` is
always a valid rune, so the Go code's replacement-character fallback for
invalid runes is unreachable here). -/
def goQuoteChar (isPrint : Char → Bool) (c : Char) : List Char :=
  if c = '"' ∨ c = '\\' then ['\\', c]
  else if isPrint c then [c]
  else if c = '\x07' then ['\\', 'a']
  else if c = '\x08' then ['\\', 'b']
  else if c = '\x0c' then ['\\', 'f']
  else if c = '\n' then ['\\', 'n']
  else if c = '\r' then ['\\', 'r']
  else if c = '\t' then ['\\', 't']
  else if c = '\x0b' then ['\\', 'v']
  else if c.toNat < 32 ∨ c.toNat = 127 then
    ['\\', 'x', goHexDigit (c.toNat / 16 % 16), goHexDigit (c.toNat % 16)]
  else if c.toNat < 65536 then
    ['\\', 'u', goHexDigit (c.toNat / 4096 % 16), goHexDigit (c.toNat / 256 % 16),
      goHexDigit (c.toNat / 16 % 16), goHexDigit (c.toNat % 16)]
  else
    ['\\', 'U', goHexDigit (c.toNat / 268435456 % 16),
      goHexDigit (c.toNat / 16777216 % 16), goHexDigit (c.toNat / 1048576 % 16),
      goHexDigit (c.toNat / 65536 % 16), goHexDigit (c.toNat / 4096 % 16),
      goHexDigit (c.toNat / 256 % 16), goHexDigit (c.toNat / 16 % 16),
      goHexDigit (c.toNat % 16)]

/-- Go `strconv.Quote`, the rendering of the `%q` verb: the escaped characters
between double quotes, with the printability table passed through. -/
def goQuote (isPrint : Char → Bool) (l : List Char) : List Char :=
  '"' :: (l.map (goQuoteChar isPrint)).flatten ++ ['"']

/-- The error values produced in `waiter.go`, one constructor per
`errors.New` / `fmt.Errorf` site, with errors of the two external
collaborators carried through opaquely by their message. -/
inductive WaitError where
  /-- fmt.Errorf of the fixed arity message in the `jsonpath=` branch of
  `waiterFor`. -/
  | malformedJSONPath : WaitError
  /-- errors.New of "jsonpath expression cannot be empty" in
  `newJSONPathParser`. -/
  | emptyExpression : WaitError
  /-- errors.New of "jsonpath wait condition cannot be empty" in
  `processJSONPathInput`. -/
  | emptyCondition : WaitError
  /-- fmt.Errorf of "unrecognized condition: %q" with the raw input. -/
  | unrecognizedCondition (raw : String) : WaitError
  /-- An error returned by `get.RelaxedJSONPathExpression` and propagated
  unchanged. -/
  | relaxErr (msg : String) : WaitError
  /-- An error returned by the jsonpath `Parse` call and propagated
  unchanged. -/
  | parseErr (msg : String) : WaitError
deriving DecidableEq, Repr

/-- The user-visible message of each error value.  Only the unrecognized
condition formats through `%q`, so only it consults the printability table. -/
def errMessage (isPrint : Char → Bool) : WaitError → String
  | .malformedJSONPath =>
      "jsonpath wait format must be --for=jsonpath='\x7b.status.readyReplicas\x7d'=3"
  | .emptyExpression => "jsonpath expression cannot be empty"
  | .emptyCondition => "jsonpath wait condition cannot be empty"
  | .unrecognizedCondition raw => "unrecognized condition: " ++ ⟨goQuote isPrint raw.data⟩
  | .relaxErr msg => msg
  | .parseErr msg => msg

/-- Modelled from the spec: the classification carried by the constructed
Waiter (the spec's `ConditionKind` tagged variant).  The constructor functions
`NewDeletionWaiter`, `NewConditionalWaiter` and `NewJSONPathWaiter` are not
under src/; each is represented by the classification data `waiterFor` hands
it, which per the spec determines the Waiter's evaluator, ignore-predicates
and flags. -/
inductive ConditionKind where
  | deletion : ConditionKind
  | namedCondition (name value : String) : ConditionKind
  | pathQuery (compiledPath expectedValue : String) : ConditionKind
deriving DecidableEq, Repr

/-- Embedding of `processJSONPathInput` (waiter.go lines 76-88): relax the
path expression through the external collaborator, reject an empty expected
value, then trim every surrounding quote character from it. -/
def processJSONPathInput (relax : String → Except String String)
    (jsonPathExpression jsonPathCond : String) :
    Except WaitError (String × String) :=
  match relax jsonPathExpression with
  | .error e => .error (.relaxErr e)
  | .ok relaxedJSONPathExp =>
    if jsonPathCond = "" then .error .emptyCondition
    else .ok (relaxedJSONPathExp, ⟨goTrim quoteCutset jsonPathCond.data⟩)

/-- Embedding of `newJSONPathParser` (waiter.go lines 64-73): reject the empty
expression before the external parser is consulted; a successfully parsed
expression is represented by its source string (the `jsonpath.JSONPath` object
is determined by it). -/
def newJSONPathParser (parse : String → Except String Unit)
    (jsonPathExpression : String) : Except WaitError String :=
  if jsonPathExpression = "" then .error .emptyExpression
  else
    match parse jsonPathExpression with
    | .error e => .error (.parseErr e)
    | .ok _ => .ok jsonPathExpression

/-- Embedding of `waiterFor` (waiter.go lines 30-61).  The `errOut` sink the
Go function threads to the Waiter constructors plays no part in
classification and is omitted.  First branch: case-insensitive `delete`;
second: `condition=` prefix with an optional value split at the first `=`;
third: `jsonpath=` prefix with a strict three-field arity check over the whole
string; otherwise the unrecognized-condition error. -/
def waiterFor (relax : String → Except String String)
    (parse : String → Except String Unit) (condition : String) :
    Except WaitError ConditionKind :=
  if goToLower condition.data = "delete".data then .ok .deletion
  else if goHasPrefix condition.data "condition=".data then
    let conditionName := condition.data.drop "condition=".data.length
    match splitAtFirst '=' conditionName with
    | some (name, value) => .ok (.namedCondition ⟨name⟩ ⟨value⟩)
    | none => .ok (.namedCondition ⟨conditionName⟩ "true")
  else if goHasPrefix condition.data "jsonpath=".data then
    let splitStr := goSplit '=' condition.data
    if splitStr.length ≠ 3 then .error .malformedJSONPath
    else
      match processJSONPathInput relax ⟨splitStr[1]!⟩ ⟨splitStr[2]!⟩ with
      | .error e => .error e
      | .ok (jsonPathExp, jsonPathCond) =>
        match newJSONPathParser parse jsonPathExp with
        | .error e => .error e
        | .ok j => .ok (.pathQuery j jsonPathCond)
  else .error (.unrecognizedCondition condition)

/-- The tail of `waiterFor`'s `jsonpath=` branch once the arity check has
passed (waiter.go lines 49-57): normalize the two fields through
`processJSONPathInput`, compile the path through `newJSONPathParser`, and
build the path-query Waiter; every error is returned unchanged. -/
def jsonpathTail (relax : String → Except String String)
    (parse : String → Except String Unit) (pathField condField : String) :
    Except WaitError ConditionKind :=
  match processJSONPathInput relax pathField condField with
  | .error e => .error e
  | .ok (jsonPathExp, jsonPathCond) =>
    match newJSONPathParser parse jsonPathExp with
    | .error e => .error e
    | .ok j => .ok (.pathQuery j jsonPathCond)

/-- Modelled from the spec: a well-behaved instance of the external
field-selector relaxer (`get.RelaxedJSONPathExpression`, outside this
package), used to instantiate witnesses.  It passes the empty string through
unchanged, keeps brace-wrapped expressions as they are and wraps shorthand
ones in `\x7b. ... \x7d`, per the spec's "relaxes shorthand path syntax into a
canonical form". -/
def specRelax (p : String) : Except String String :=
  if p = "" then .ok p
  else if goHasPrefix p.data "\x7b".data then .ok p
  else .ok ("\x7b." ++ p ++ "\x7d")

/-- Modelled from the spec: an instance of the external printability table
(`unicode.IsPrint`) used to instantiate witnesses and counterexamples.  On
the ASCII range it is exact — printable means space through tilde — and every
concrete input below stays within ASCII, where this instance and Go's table
agree; above ASCII it answers false. -/
def specIsPrint (c : Char) : Bool := 32 ≤ c.toNat && c.toNat ≤ 126

/-- Modelled from the spec: an instance of the external jsonpath parser
collaborator that accepts every expression, used to instantiate witnesses. -/
def specOkParse : String → Except String Unit := fun _ => .ok ()

/-! ## Basic lemmas about the embedded Go string operations -/

theorem data_mk (l : List Char) : (String.mk l).data = l := rfl

theorem mk_data (s : String) : (⟨s.data⟩ : String) = s := rfl

theorem data_append (a b : String) : (a ++ b).data = a.data ++ b.data := by
  cases a; cases b; rfl

theorem goToLower_length (l : List Char) : (goToLower l).length = l.length :=
  List.length_map l Char.toLower

theorem goHasPrefix_append (p t : List Char) : goHasPrefix (p ++ t) p = true := by
  induction p with
  | nil => simp [goHasPrefix]
  | cons c cs ih => simp [goHasPrefix, ih]

theorem goHasPrefix_iff (l p : List Char) :
    goHasPrefix l p = true ↔ ∃ t, l = p ++ t := by
  induction p generalizing l with
  | nil => simp [goHasPrefix]
  | cons q ps ih =>
    cases l with
    | nil => simp [goHasPrefix]
    | cons c cs =>
      simp only [goHasPrefix, Bool.and_eq_true, beq_iff_eq, ih, List.cons_append,
        List.cons.injEq]
      constructor
      · rintro ⟨rfl, t, rfl⟩
        exact ⟨t, rfl, rfl⟩
      · rintro ⟨t, rfl, rfl⟩
        exact ⟨rfl, t, rfl⟩

theorem goHasPrefix_cons_ne (c p : Char) (l ps : List Char) (h : c ≠ p) :
    goHasPrefix (c :: l) (p :: ps) = false := by
  simp [goHasPrefix, h]

theorem goSplit_of_not_mem (sep : Char) (l : List Char) (h : sep ∉ l) :
    goSplit sep l = [l] := by
  induction l with
  | nil => rfl
  | cons c cs ih =>
    have hc : ¬ (c == sep) = true := by
      simp only [beq_iff_eq]
      exact fun e => h (e ▸ List.mem_cons_self c cs)
    have hcs : sep ∉ cs := fun e => h (List.mem_cons_of_mem c e)
    simp [goSplit, hc, ih hcs]

theorem goSplit_append (sep : Char) (l₁ l₂ : List Char) (h : sep ∉ l₁) :
    goSplit sep (l₁ ++ sep :: l₂) = l₁ :: goSplit sep l₂ := by
  induction l₁ with
  | nil => simp [goSplit]
  | cons c cs ih =>
    have hc : ¬ (c == sep) = true := by
      simp only [beq_iff_eq]
      exact fun e => h (e ▸ List.mem_cons_self c cs)
    have hcs : sep ∉ cs := fun e => h (List.mem_cons_of_mem c e)
    simp [goSplit, hc, ih hcs]

theorem splitAtFirst_of_not_mem (sep : Char) (l : List Char) (h : sep ∉ l) :
    splitAtFirst sep l = none := by
  induction l with
  | nil => rfl
  | cons c cs ih =>
    have hc : ¬ (c == sep) = true := by
      simp only [beq_iff_eq]
      exact fun e => h (e ▸ List.mem_cons_self c cs)
    have hcs : sep ∉ cs := fun e => h (List.mem_cons_of_mem c e)
    simp [splitAtFirst, hc, ih hcs]

theorem splitAtFirst_append (sep : Char) (l₁ l₂ : List Char) (h : sep ∉ l₁) :
    splitAtFirst sep (l₁ ++ sep :: l₂) = some (l₁, l₂) := by
  induction l₁ with
  | nil => simp [splitAtFirst]
  | cons c cs ih =>
    have hc : ¬ (c == sep) = true := by
      simp only [beq_iff_eq]
      exact fun e => h (e ▸ List.mem_cons_self c cs)
    have hcs : sep ∉ cs := fun e => h (List.mem_cons_of_mem c e)
    simp [splitAtFirst, hc, ih hcs]

theorem dropWhile_append_sat {p : Char → Bool} (l₁ l₂ : List Char)
    (h : ∀ c ∈ l₁, p c = true) :
    (l₁ ++ l₂).dropWhile p = l₂.dropWhile p := by
  induction l₁ with
  | nil => rfl
  | cons c cs ih =>
    simp only [List.cons_append, List.dropWhile_cons, h c (List.mem_cons_self c cs),
      if_true]
    exact ih fun x hx => h x (List.mem_cons_of_mem c hx)

theorem dropWhile_sat_nil {p : Char → Bool} (l : List Char)
    (h : ∀ c ∈ l, p c = true) : l.dropWhile p = [] := by
  have := dropWhile_append_sat (p := p) l [] h
  simpa using this

theorem dropWhile_head_not {p : Char → Bool} (l : List Char)
    (h : ∀ c, l.head? = some c → p c = false) : l.dropWhile p = l := by
  cases l with
  | nil => rfl
  | cons c cs => simp [List.dropWhile_cons, h c rfl]

/-! ## The two local parsing helpers never produce the arity error -/

theorem processJSONPathInput_error_cases (relax : String → Except String String)
    (a b : String) (e : WaitError)
    (h : processJSONPathInput relax a b = .error e) :
    (∃ m, e = .relaxErr m) ∨ e = .emptyCondition := by
  unfold processJSONPathInput at h
  rcases hr : relax a with m | r
  · simp only [hr] at h
    exact Or.inl ⟨m, ((Except.error.injEq _ _).mp h).symm⟩
  · simp only [hr] at h
    by_cases hb : b = ""
    · rw [if_pos hb] at h
      exact Or.inr ((Except.error.injEq _ _).mp h.symm)
    · rw [if_neg hb] at h
      exact absurd h (by simp)

theorem newJSONPathParser_error_cases (parse : String → Except String Unit)
    (a : String) (e : WaitError)
    (h : newJSONPathParser parse a = .error e) :
    e = .emptyExpression ∨ ∃ m, e = .parseErr m := by
  unfold newJSONPathParser at h
  by_cases ha : a = ""
  · rw [if_pos ha] at h
    exact Or.inl ((Except.error.injEq _ _).mp h.symm)
  · rw [if_neg ha] at h
    rcases hp : parse a with m | u
    · simp only [hp] at h
      exact Or.inr ⟨m, ((Except.error.injEq _ _).mp h).symm⟩
    · simp only [hp] at h
      exact absurd h (by simp)

/-! ## Shape of `waiterFor` on each recognized prefix -/

theorem waiterFor_condition_case (relax : String → Except String String)
    (parse : String → Except String Unit) (t : List Char) :
    waiterFor relax parse ⟨"condition=".data ++ t⟩ =
      match splitAtFirst '=' t with
      | some (name, value) => .ok (.namedCondition ⟨name⟩ ⟨value⟩)
      | none => .ok (.namedCondition ⟨t⟩ "true") := by
  have hdel : ¬ goToLower ("condition=".data ++ t) = "delete".data := by
    intro h
    have hlen := congrArg List.length h
    rw [goToLower_length, List.length_append] at hlen
    have h10 : "condition=".data.length = 10 := rfl
    have h6 : "delete".data.length = 6 := rfl
    omega
  have hcond : goHasPrefix ("condition=".data ++ t) "condition=".data = true :=
    goHasPrefix_append _ _
  simp only [data_mk] at hdel hcond
  unfold waiterFor
  simp only [data_mk, hcond, if_neg hdel, if_true, List.drop_left]

theorem goSplit_jsonpath (t : List Char) :
    goSplit '=' ("jsonpath=".data ++ t) = "jsonpath".data :: goSplit '=' t := by
  have h : "jsonpath=".data ++ t = "jsonpath".data ++ '=' :: t := rfl
  rw [h]
  exact goSplit_append '=' _ t (by decide)

theorem waiterFor_jsonpath_case (relax : String → Except String String)
    (parse : String → Except String Unit) (t : List Char) :
    waiterFor relax parse ⟨"jsonpath=".data ++ t⟩ =
      match goSplit '=' t with
      | [p, c] => jsonpathTail relax parse ⟨p⟩ ⟨c⟩
      | _ => .error .malformedJSONPath := by
  have hdel : ¬ goToLower ("jsonpath=".data ++ t) = "delete".data := by
    intro h
    have hlen := congrArg List.length h
    rw [goToLower_length, List.length_append] at hlen
    have h9 : "jsonpath=".data.length = 9 := rfl
    have h6 : "delete".data.length = 6 := rfl
    omega
  have hcond : goHasPrefix ("jsonpath=".data ++ t) "condition=".data = false := by
    show goHasPrefix ('j' :: ("sonpath=".data ++ t)) ('c' :: "ondition=".data) = false
    exact goHasPrefix_cons_ne _ _ _ _ (by decide)
  have hjson : goHasPrefix ("jsonpath=".data ++ t) "jsonpath=".data = true :=
    goHasPrefix_append _ _
  have hsplit := goSplit_jsonpath t
  simp only [data_mk] at hdel hcond hjson hsplit
  unfold waiterFor
  simp only [data_mk, hcond, hjson, if_neg hdel, Bool.false_eq_true, if_false, if_true,
    hsplit]
  rcases goSplit '=' t with _ | ⟨p, _ | ⟨c, _ | ⟨d, rest⟩⟩⟩
  · rw [if_pos (by decide)]
  · rw [if_pos (by simp)]
  · rw [if_neg (by simp)]
    rfl
  · rw [if_pos (by simp only [List.length_cons]; omega)]

theorem waiterFor_unrecognized_case (relax : String → Except String String)
    (parse : String → Except String Unit) (s : String)
    (h₁ : ¬ goToLower s.data = "delete".data)
    (h₂ : goHasPrefix s.data "condition=".data = false)
    (h₃ : goHasPrefix s.data "jsonpath=".data = false) :
    waiterFor relax parse s = .error (.unrecognizedCondition s) := by
  unfold waiterFor
  simp only [h₂, h₃, if_neg h₁, Bool.false_eq_true, if_false]

theorem jsonpathTail_ne_malformed (relax : String → Except String String)
    (parse : String → Except String Unit) (a b : String) :
    jsonpathTail relax parse a b ≠ .error .malformedJSONPath := by
  intro heq
  unfold jsonpathTail at heq
  rcases hP : processJSONPathInput relax a b with e | ⟨exp, cond⟩
  · simp only [hP] at heq
    rcases processJSONPathInput_error_cases relax a b e hP with ⟨m, rfl⟩ | rfl <;>
      simp_all
  · simp only [hP] at heq
    rcases hN : newJSONPathParser parse exp with e | j
    · simp only [hN] at heq
      rcases newJSONPathParser_error_cases parse exp e hN with rfl | ⟨m, rfl⟩ <;>
        simp_all
    · simp only [hN] at heq
      exact Except.noConfusion heq

theorem flatten_map_singleton (f : Char → List Char) (l : List Char)
    (h : ∀ c ∈ l, f c = [c]) : (l.map f).flatten = l := by
  induction l with
  | nil => rfl
  | cons c cs ih =>
    simp only [List.map_cons, List.flatten_cons, h c (List.mem_cons_self c cs),
      ih fun x hx => h x (List.mem_cons_of_mem c hx)]
    rfl

/-! ## Trimming all quote layers -/

theorem goTrim_quote_layers (q₁ q₂ core : List Char)
    (hq₁ : ∀ c ∈ q₁, c ∈ quoteCutset) (hq₂ : ∀ c ∈ q₂, c ∈ quoteCutset)
    (hc₁ : ∀ c, core.head? = some c → c ∉ quoteCutset)
    (hc₂ : ∀ c, core.getLast? = some c → c ∉ quoteCutset) :
    goTrim quoteCutset (q₁ ++ core ++ q₂) = core := by
  have hf₁ : ∀ c ∈ q₁, decide (c ∈ quoteCutset) = true := fun c hc => by
    simp [hq₁ c hc]
  have hf₂ : ∀ c ∈ q₂.reverse, decide (c ∈ quoteCutset) = true := fun c hc => by
    simp [hq₂ c (List.mem_reverse.mp hc)]
  unfold goTrim goTrimLeft
  rw [List.append_assoc, dropWhile_append_sat q₁ (core ++ q₂) hf₁]
  cases core with
  | nil =>
    rw [List.nil_append, dropWhile_sat_nil q₂ fun c hc => by simp [hq₂ c hc]]
    rfl
  | cons c cs =>
    have hpc : decide (c ∈ quoteCutset) = false := by
      simp only [decide_eq_false_iff_not]
      exact hc₁ c rfl
    rw [dropWhile_head_not ((c :: cs) ++ q₂) fun x hx => by
      rw [List.cons_append, List.head?_cons] at hx
      exact Option.some.inj hx ▸ hpc]
    rw [List.reverse_append, dropWhile_append_sat q₂.reverse (c :: cs).reverse hf₂]
    rw [dropWhile_head_not (c :: cs).reverse fun x hx => by
      rw [List.head?_reverse] at hx
      simp [hc₂ x hx]]
    exact List.reverse_reverse _

/-! ## The claims -/

/-- C3: an input of the form condition=REST is classified by splitting REST at
the first `=` only: with no `=` in REST the name is REST and the value
defaults to the string true; otherwise the name is the part before the first
`=` and the value is everything after it (so condition=Ready=a=b yields name
Ready and value a=b, the value keeping its embedded `=`). -/
theorem waiterFor_condition_first_split (relax : String → Except String String)
    (parse : String → Except String Unit) :
    (∀ rest : String, '=' ∉ rest.data →
      waiterFor relax parse ("condition=" ++ rest) = .ok (.namedCondition rest "true"))
    ∧ (∀ name value : String, '=' ∉ name.data →
      waiterFor relax parse ("condition=" ++ name ++ "=" ++ value) =
        .ok (.namedCondition name value)) := by
  constructor
  · intro rest hrest
    have hs : ("condition=" ++ rest : String) = ⟨"condition=".data ++ rest.data⟩ := by
      cases rest
      rfl
    rw [hs, waiterFor_condition_case, splitAtFirst_of_not_mem '=' rest.data hrest]
  · intro name value hname
    have hs : ("condition=" ++ name ++ "=" ++ value : String)
        = ⟨"condition=".data ++ (name.data ++ '=' :: value.data)⟩ := by
      apply String.ext
      simp only [data_append, data_mk]
      simp [List.append_assoc]
    rw [hs, waiterFor_condition_case, splitAtFirst_append '=' name.data value.data hname]

/-- C3 witness: condition=Ready classifies as the named condition Ready with
the default value true, and condition=Ready=a=b splits only at the first `=`,
keeping a=b whole as the value. -/
theorem waiterFor_condition_first_split_witness :
    waiterFor specRelax specOkParse ("condition=" ++ "Ready")
        = .ok (.namedCondition "Ready" "true")
    ∧ waiterFor specRelax specOkParse ("condition=" ++ "Ready" ++ "=" ++ "a=b")
        = .ok (.namedCondition "Ready" "a=b") :=
  ⟨(waiterFor_condition_first_split specRelax specOkParse).1 "Ready" (by decide),
   (waiterFor_condition_first_split specRelax specOkParse).2 "Ready" "a=b" (by decide)⟩

/-- C4: waiterFor classifies an input as Deletion exactly when the input
lowercased equals the literal delete; no other branch of the classifier can
produce the deletion Waiter. -/
theorem waiterFor_deletion_iff (relax : String → Except String String)
    (parse : String → Except String Unit) (s : String) :
    waiterFor relax parse s = .ok .deletion ↔ goToLower s.data = "delete".data := by
  constructor
  · intro h
    by_contra hd
    unfold waiterFor at h
    rw [if_neg hd] at h
    dsimp only [] at h
    split at h
    · split at h <;> simp_all
    · split at h
      · split at h
        · simp_all
        · split at h
          · simp_all
          · split at h <;> simp_all
      · simp_all
  · intro h
    unfold waiterFor
    rw [if_pos h]

/-- C4 witness: delete, DELETE and Delete all classify as Deletion, while
deleted is not a deletion and instead fails as unrecognized. -/
theorem waiterFor_deletion_iff_witness :
    waiterFor specRelax specOkParse "delete" = .ok .deletion
    ∧ waiterFor specRelax specOkParse "DELETE" = .ok .deletion
    ∧ waiterFor specRelax specOkParse "Delete" = .ok .deletion
    ∧ waiterFor specRelax specOkParse "deleted" ≠ .ok .deletion
    ∧ waiterFor specRelax specOkParse "deleted"
        = .error (.unrecognizedCondition "deleted") :=
  ⟨(waiterFor_deletion_iff specRelax specOkParse "delete").mpr (by decide),
   (waiterFor_deletion_iff specRelax specOkParse "DELETE").mpr (by decide),
   (waiterFor_deletion_iff specRelax specOkParse "Delete").mpr (by decide),
   fun h => by
     have := (waiterFor_deletion_iff specRelax specOkParse "deleted").mp h
     exact absurd this (by decide),
   rfl⟩

/-- C5 counterexample: for the unrecognized input a"b (which contains a double
quote), the error message renders the input through the %q verb as "a\"b", so
the message does not contain the original input verbatim, refuting the claim
as stated for every input (the printability table is instantiated with the
ASCII-exact instance; every character involved is ASCII, and the double quote
is escaped before the table is even consulted). -/
theorem waiterFor_unrecognized_verbatim_cex :
    waiterFor specRelax specOkParse "a\"b" = .error (.unrecognizedCondition "a\"b")
    ∧ ¬ List.IsInfix "a\"b".data
        (errMessage specIsPrint (.unrecognizedCondition "a\"b")).data :=
  ⟨rfl, by decide⟩

/-- C5 (amended): an input matching no recognized branch fails with the
unrecognized-condition error carrying the original input string; the message
embeds that string in Go %q quoted form, so — for any printability table, in
particular Go's — the message contains the input verbatim whenever %q leaves
every character of the input unescaped (as for foo=bar), though not when the
input contains a character %q escapes, such as a double quote, a backslash,
or a non-printable character like U+2028. -/
theorem waiterFor_unrecognized_carries_raw (isPrint : Char → Bool)
    (relax : String → Except String String)
    (parse : String → Except String Unit) (s : String)
    (h₁ : ¬ goToLower s.data = "delete".data)
    (h₂ : goHasPrefix s.data "condition=".data = false)
    (h₃ : goHasPrefix s.data "jsonpath=".data = false) :
    waiterFor relax parse s = .error (.unrecognizedCondition s)
    ∧ ((∀ c ∈ s.data, goQuoteChar isPrint c = [c]) →
        List.IsInfix s.data (errMessage isPrint (.unrecognizedCondition s)).data) := by
  refine ⟨waiterFor_unrecognized_case relax parse s h₁ h₂ h₃, fun hall => ?_⟩
  refine ⟨"unrecognized condition: ".data ++ ['"'], ['"'], ?_⟩
  simp only [errMessage, data_append, data_mk, goQuote,
    flatten_map_singleton (goQuoteChar isPrint) s.data hall]
  simp [List.append_assoc]

/-- C5 witness: foo=bar fails with the unrecognized-condition error carrying
foo=bar, and its message contains foo=bar verbatim (all its characters are
printable ASCII, where the instantiated table agrees with Go's). -/
theorem waiterFor_unrecognized_carries_raw_witness :
    waiterFor specRelax specOkParse "foo=bar"
        = .error (.unrecognizedCondition "foo=bar")
    ∧ List.IsInfix "foo=bar".data
        (errMessage specIsPrint (.unrecognizedCondition "foo=bar")).data := by
  have h := waiterFor_unrecognized_carries_raw specIsPrint specRelax specOkParse
    "foo=bar" (by decide) (by decide) (by decide)
  exact ⟨h.1, h.2 (by decide)⟩

/-- C8: waiterFor is deterministic and stateless: it is a pure function of the
raw condition string and the two collaborator functions, so two invocations
with the same collaborator behaviour and the same input yield structurally
equal results (the embedding needs no state to express it). -/
theorem waiterFor_deterministic (relax₁ relax₂ : String → Except String String)
    (parse₁ parse₂ : String → Except String Unit) (s₁ s₂ : String)
    (hrelax : relax₁ = relax₂) (hparse : parse₁ = parse₂) (hs : s₁ = s₂) :
    waiterFor relax₁ parse₁ s₁ = waiterFor relax₂ parse₂ s₂ := by
  subst hrelax hparse hs
  rfl

/-- C8 witness: two invocations on condition=Ready agree. -/
theorem waiterFor_deterministic_witness :
    waiterFor specRelax specOkParse "condition=Ready"
      = waiterFor specRelax specOkParse "condition=Ready" :=
  waiterFor_deterministic specRelax specRelax specOkParse specOkParse
    "condition=Ready" "condition=Ready" rfl rfl rfl

/-- C10: every input that starts with the prefix condition= classifies
successfully as a named condition: the branch performs no validation and
cannot fail, whatever the collaborators do. -/
theorem waiterFor_condition_always_ok (relax : String → Except String String)
    (parse : String → Except String Unit) (s : String)
    (hp : goHasPrefix s.data "condition=".data = true) :
    ∃ name value, waiterFor relax parse s = .ok (.namedCondition name value) := by
  obtain ⟨t, ht⟩ := (goHasPrefix_iff _ _).mp hp
  have hs : s = ⟨"condition=".data ++ t⟩ := String.ext ht
  subst hs
  rw [waiterFor_condition_case]
  rcases splitAtFirst '=' t with _ | ⟨a, b⟩
  · exact ⟨⟨t⟩, "true", rfl⟩
  · exact ⟨⟨a⟩, ⟨b⟩, rfl⟩

/-- C10 witness: the bare input condition= succeeds, with the empty name and
the default value true. -/
theorem waiterFor_condition_always_ok_witness :
    (∃ name value, waiterFor specRelax specOkParse "condition="
        = .ok (.namedCondition name value))
    ∧ waiterFor specRelax specOkParse "condition="
        = .ok (.namedCondition "" "true") :=
  ⟨waiterFor_condition_always_ok specRelax specOkParse "condition=" (by decide), rfl⟩

/-- C2: for an input with the jsonpath= prefix, waiterFor returns the
malformed-jsonpath arity error exactly when splitting the whole input by `=`
does not yield exactly 3 fields; with exactly 3 fields the arity error can
never be the outcome, whatever the collaborators do. -/
theorem waiterFor_jsonpath_arity (relax : String → Except String String)
    (parse : String → Except String Unit) (s : String)
    (hp : goHasPrefix s.data "jsonpath=".data = true) :
    ((goSplit '=' s.data).length ≠ 3 →
      waiterFor relax parse s = .error .malformedJSONPath)
    ∧ ((goSplit '=' s.data).length = 3 →
      waiterFor relax parse s ≠ .error .malformedJSONPath) := by
  obtain ⟨t, ht⟩ := (goHasPrefix_iff _ _).mp hp
  have hs : s = ⟨"jsonpath=".data ++ t⟩ := String.ext ht
  subst hs
  rw [waiterFor_jsonpath_case]
  have hsplit := goSplit_jsonpath t
  simp only [data_mk] at hsplit ⊢
  rw [hsplit]
  constructor
  · intro hlen
    rcases hg : goSplit '=' t with _ | ⟨p, _ | ⟨c, _ | ⟨d, rest⟩⟩⟩
    · rfl
    · rfl
    · rw [hg] at hlen
      exact absurd (by simp) hlen
    · rfl
  · intro hlen
    rcases hg : goSplit '=' t with _ | ⟨p, _ | ⟨c, _ | ⟨d, rest⟩⟩⟩
    · rw [hg] at hlen
      simp at hlen
    · rw [hg] at hlen
      simp at hlen
    · exact jsonpathTail_ne_malformed relax parse ⟨p⟩ ⟨c⟩
    · rw [hg] at hlen
      simp only [List.length_cons] at hlen
      omega

/-- C2 witness: jsonpath={.status.phase} (no embedded value) and
jsonpath={.status.phase}=a=b (two embedded values) both fail with
the arity error, while jsonpath={.status.phase}=Running passes the
arity check and classifies as a path query. -/
theorem waiterFor_jsonpath_arity_witness :
    waiterFor specRelax specOkParse "jsonpath=\x7b.status.phase\x7d"
        = .error .malformedJSONPath
    ∧ waiterFor specRelax specOkParse "jsonpath=\x7b.status.phase\x7d=a=b"
        = .error .malformedJSONPath
    ∧ waiterFor specRelax specOkParse "jsonpath=\x7b.status.phase\x7d=Running"
        = .ok (.pathQuery "\x7b.status.phase\x7d" "Running") :=
  ⟨(waiterFor_jsonpath_arity specRelax specOkParse
      "jsonpath=\x7b.status.phase\x7d" (by decide)).1 (by decide),
   (waiterFor_jsonpath_arity specRelax specOkParse
      "jsonpath=\x7b.status.phase\x7d=a=b" (by decide)).1 (by decide),
   rfl⟩

/-- C6: when the path field is empty, as in jsonpath==x, waiterFor fails with
the dedicated empty-expression error; the result is the same for every parser
collaborator (the parser is never consulted), and that error is distinct from
any parse error by construction.  The hypothesis records that the external
relaxer returns the empty string unchanged, which is what
get.RelaxedJSONPathExpression does on empty input. -/
theorem waiterFor_empty_jsonpath_expr (relax : String → Except String String)
    (hr : relax "" = .ok "") :
    (∀ parse : String → Except String Unit,
      waiterFor relax parse "jsonpath==x" = .error .emptyExpression)
    ∧ ∀ m, WaitError.emptyExpression ≠ WaitError.parseErr m := by
  refine ⟨fun parse => ?_, fun m => by simp⟩
  have h0 : ("jsonpath==x" : String) = ⟨"jsonpath=".data ++ ('=' :: 'x' :: [])⟩ := rfl
  rw [h0, waiterFor_jsonpath_case]
  have hg : goSplit '=' ('=' :: 'x' :: []) = [[], ['x']] := rfl
  rw [hg]
  show jsonpathTail relax parse ⟨[]⟩ ⟨['x']⟩ = .error .emptyExpression
  have hP : processJSONPathInput relax ⟨([] : List Char)⟩ ⟨['x']⟩ = .ok ("", "x") := by
    show processJSONPathInput relax "" "x" = .ok ("", "x")
    simp only [processJSONPathInput, hr]
    rfl
  unfold jsonpathTail
  simp only [hP]
  rfl

/-- C6 witness: with the spec-modelled relaxer (which maps the empty path to
itself), jsonpath==x fails with the empty-expression error. -/
theorem waiterFor_empty_jsonpath_expr_witness :
    waiterFor specRelax specOkParse "jsonpath==x" = .error .emptyExpression :=
  (waiterFor_empty_jsonpath_expr specRelax rfl).1 specOkParse

/-- C7: processJSONPathInput fails with the empty-condition error only when
its expected-value argument is empty, and exactly then whenever the relaxer
accepts the path (when the relaxer rejects the path its own error is returned
first, mirroring the call order of the code); the empty-condition error is a
different value with a different message than the empty-expression error, so
the two failure kinds are distinguishable. -/
theorem processJSONPathInput_empty_condition_iff (relax : String → Except String String)
    (path cond : String) :
    (processJSONPathInput relax path cond = .error .emptyCondition → cond = "")
    ∧ ((∃ r, relax path = .ok r) →
        (processJSONPathInput relax path cond = .error .emptyCondition ↔ cond = ""))
    ∧ WaitError.emptyCondition ≠ WaitError.emptyExpression
    ∧ ∀ isPrint : Char → Bool,
        errMessage isPrint .emptyCondition ≠ errMessage isPrint .emptyExpression := by
  have fwd : processJSONPathInput relax path cond = .error .emptyCondition →
      cond = "" := by
    intro h
    unfold processJSONPathInput at h
    rcases hr : relax path with m | r
    · simp only [hr] at h
      exact absurd ((Except.error.injEq _ _).mp h) (by simp)
    · simp only [hr] at h
      by_cases hb : cond = ""
      · exact hb
      · rw [if_neg hb] at h
        exact absurd h (by simp)
  refine ⟨fwd, ?_, by simp, fun isPrint =>
    (by decide : ("jsonpath wait condition cannot be empty" : String)
      ≠ "jsonpath expression cannot be empty")⟩
  rintro ⟨r, hr⟩
  refine ⟨fwd, fun hc => ?_⟩
  simp only [processJSONPathInput, hr]
  rw [if_pos hc]

/-- C7 witness: at the empty expected value the empty-condition error is
produced, and its message differs from the empty-expression message. -/
theorem processJSONPathInput_empty_condition_iff_witness :
    processJSONPathInput specRelax "\x7b.a\x7d" "" = .error .emptyCondition
    ∧ errMessage specIsPrint .emptyCondition ≠ errMessage specIsPrint .emptyExpression := by
  have h := processJSONPathInput_empty_condition_iff specRelax "\x7b.a\x7d" ""
  exact ⟨(h.2.1 ⟨"\x7b.a\x7d", rfl⟩).mpr rfl, h.2.2.2 specIsPrint⟩

/-- C9: because the emptiness check runs before quote trimming, a
quoted-empty expected value bypasses the empty-condition error: whenever the
relaxer accepts the path, the expected value consisting of two single quotes
normalizes successfully to the empty string, and the whole input
jsonpath=PATH='' classifies as a path query expecting the empty string
(provided the path has no embedded `=` and the parser accepts the relaxed
path, which are the conditions for reaching the normalizer at all). -/
theorem processJSONPathInput_quoted_empty (relax : String → Except String String)
    (path r : String) (hr : relax path = .ok r) :
    processJSONPathInput relax path "''" = .ok (r, "")
    ∧ ∀ parse : String → Except String Unit, '=' ∉ path.data → r ≠ "" →
        parse r = .ok () →
        waiterFor relax parse ("jsonpath=" ++ path ++ "=''") =
          .ok (.pathQuery r "") := by
  have h1 : processJSONPathInput relax path "''" = .ok (r, "") := by
    simp only [processJSONPathInput, hr]
    rw [if_neg (by decide : ¬("''" : String) = "")]
    rfl
  refine ⟨h1, fun parse hpath hrne hparse => ?_⟩
  have hs : ("jsonpath=" ++ path ++ "=''" : String)
      = ⟨"jsonpath=".data ++ (path.data ++ '=' :: '\'' :: '\'' :: [])⟩ := by
    apply String.ext
    simp only [data_append, data_mk]
    simp [List.append_assoc]
  rw [hs, waiterFor_jsonpath_case]
  have hg : goSplit '=' (path.data ++ '=' :: '\'' :: '\'' :: [])
      = [path.data, ['\'', '\'']] := by
    rw [goSplit_append '=' path.data _ hpath, goSplit_of_not_mem '=' _ (by decide)]
  rw [hg]
  show jsonpathTail relax parse ⟨path.data⟩ ⟨['\'', '\'']⟩ = .ok (.pathQuery r "")
  have hP : processJSONPathInput relax ⟨path.data⟩ ⟨['\'', '\'']⟩ = .ok (r, "") := h1
  have hN : newJSONPathParser parse r = .ok r := by
    unfold newJSONPathParser
    rw [if_neg hrne]
    simp only [hparse]
  unfold jsonpathTail
  simp only [hP, hN]

/-- C9 witness: jsonpath={.status.phase}='' succeeds and its expected
value is the empty string. -/
theorem processJSONPathInput_quoted_empty_witness :
    processJSONPathInput specRelax "\x7b.status.phase\x7d" "''"
        = .ok ("\x7b.status.phase\x7d", "")
    ∧ waiterFor specRelax specOkParse ("jsonpath=" ++ "\x7b.status.phase\x7d" ++ "=''")
        = .ok (.pathQuery "\x7b.status.phase\x7d" "") := by
  have h := processJSONPathInput_quoted_empty specRelax "\x7b.status.phase\x7d"
    "\x7b.status.phase\x7d" rfl
  exact ⟨h.1, h.2 specOkParse (by decide) (by decide) rfl⟩

/-- C1 counterexample: the doubly single-quoted expected value ''Running''
normalizes to Running, not to 'Running': the code removes every surrounding
quote character, not exactly one layer. -/
theorem processJSONPathInput_one_layer_cex :
    processJSONPathInput specRelax "\x7b.status.phase\x7d" "''Running''"
        = .ok ("\x7b.status.phase\x7d", "Running")
      ∧ ("Running" : String) ≠ "'Running'" :=
  ⟨rfl, by decide⟩

/-- C1 (amended): processJSONPathInput removes EVERY layer of surrounding
single- or double-quote characters from the expected value (the semantics of
Go strings.Trim with the quote cutset): for any expected value made of a
quote-free core surrounded by arbitrary runs of quote characters, the result
is exactly the core; in particular 'Running' yields Running and ''Running''
also yields Running. -/
theorem processJSONPathInput_trims_all_quote_layers
    (relax : String → Except String String) (path r : String)
    (hr : relax path = .ok r) (q₁ q₂ core : List Char)
    (hq₁ : ∀ c ∈ q₁, c ∈ quoteCutset) (hq₂ : ∀ c ∈ q₂, c ∈ quoteCutset)
    (hc₁ : ∀ c, core.head? = some c → c ∉ quoteCutset)
    (hc₂ : ∀ c, core.getLast? = some c → c ∉ quoteCutset)
    (hne : q₁ ++ core ++ q₂ ≠ []) :
    processJSONPathInput relax path ⟨q₁ ++ core ++ q₂⟩ = .ok (r, ⟨core⟩) := by
  have hmk : (⟨q₁ ++ core ++ q₂⟩ : String) ≠ "" := fun h =>
    hne (congrArg String.data h)
  simp only [processJSONPathInput, hr]
  rw [if_neg hmk, goTrim_quote_layers q₁ q₂ core hq₁ hq₂ hc₁ hc₂]

/-- C1 witness: the expected value ''Running'' (two layers of single quotes
around the quote-free core Running) normalizes to Running. -/
theorem processJSONPathInput_trims_all_quote_layers_witness :
    processJSONPathInput specRelax "\x7b.status.phase\x7d"
        ⟨"''".data ++ "Running".data ++ "''".data⟩
      = .ok ("\x7b.status.phase\x7d", "Running") :=
  processJSONPathInput_trims_all_quote_layers specRelax "\x7b.status.phase\x7d"
    "\x7b.status.phase\x7d" rfl "''".data "''".data "Running".data
    (by decide) (by decide)
    (fun c hc => Option.some.inj hc ▸ (by decide : ('R' : Char) ∉ quoteCutset))
    (fun c hc => Option.some.inj hc ▸ (by decide : ('g' : Char) ∉ quoteCutset))
    (by decide)

end KubectlWait
